import Mathlib

/-
Verification of the core text-processing and conversation-management logic of
the AI-agent-PDF-reader repository (src/main.py and src/app.py).

Python strings are modelled as `List Char`; Python `int` as `Int`.  Python's
negative-index slicing and `str.rfind` bounds are modelled faithfully
(`normIdx`, `pySlice`, `pyRfind`).  The `while` loop of
`TextProcessor.chunk_text` has no termination guarantee, so it is embedded
with an explicit fuel parameter: a result of `none` means the given fuel ran
out (in particular, `none` for every fuel means the loop diverges).
-/

namespace PDFReader

/-- Python slice/`rfind` index normalization: a negative index counts from the
end of the string and is clamped at 0; a nonnegative index is clamped at the
length. -/
def normIdx (i : Int) (n : Nat) : Nat :=
  if i < 0 then ((n : Int) + i).toNat else min i.toNat n

/-- Python `text[i:j]` on a string of characters. -/
def pySlice (l : List Char) (i j : Int) : List Char :=
  (l.take (normIdx j l.length)).drop (normIdx i l.length)

/-- Does `sub` occur in `text` starting at position `p`? -/
def matchAt (text sub : List Char) (p : Nat) : Bool :=
  sub.isPrefixOf (text.drop p)

/-- Scan positions `k, k-1, ..., lo` (downward) for the first (hence
rightmost) match of `sub`; `-1` when there is none.  Helper for `pyRfind`. -/
def rfindFrom (text sub : List Char) (lo : Nat) : Nat → Int
  | 0 => if lo = 0 && matchAt text sub 0 then 0 else -1
  | k + 1 =>
    if k + 1 < lo then -1
    else if matchAt text sub (k + 1) then ((k : Int) + 1)
    else rfindFrom text sub lo k

/-- Python `text.rfind(sub, i, j)`: the greatest `p` with
`normIdx i ≤ p`, `p + len(sub) ≤ normIdx j` and `sub` matching at `p`;
`-1` when there is none. -/
def pyRfind (text sub : List Char) (i j : Int) : Int :=
  let n := text.length
  let lo := normIdx i n
  let hi := normIdx j n
  if hi < sub.length then -1
  else rfindFrom text sub lo (hi - sub.length)

/-- Does `sub` occur anywhere in `text`? -/
def containsSub (text sub : List Char) : Bool :=
  (List.range (text.length + 1)).any (fun p => matchAt text sub p)

/-- The `while` loop of `TextProcessor.chunk_text` (src/main.py lines 91-103),
with fuel.  Each emitted entry records the loop's `start` and `end` values
(the chunk's offsets) together with the appended chunk `text[start:end]`:

    while start < len(text):
        end = start + chunk_size
        if end < len(text):
            sentence_end = text.rfind('. ', start, end)
            if sentence_end > start:
                end = sentence_end + 1
        chunks.append(text[start:end])
        start = end - overlap if end < len(text) else end
-/
def chunkLoop (text : List Char) (chunk_size overlap : Int) :
    Int → Nat → Option (List (Int × Int × List Char))
  | _, 0 => none
  | start, fuel + 1 =>
    if start < (text.length : Int) then
      let end0 := start + chunk_size
      let e :=
        if end0 < (text.length : Int) then
          let sentence_end := pyRfind text ['.', ' '] start end0
          if sentence_end > start then sentence_end + 1 else end0
        else end0
      let start' := if e < (text.length : Int) then e - overlap else e
      (chunkLoop text chunk_size overlap start' fuel).map
        (fun rest => (start, e, pySlice text start e) :: rest)
    else
      some []

/-- Models `TextProcessor.chunk_text` (src/main.py lines 73-104).  `none`
means the fuel ran out before the loop finished. -/
def chunk_text (text : List Char) (chunk_size overlap : Int) (fuel : Nat) :
    Option (List (List Char)) :=
  if (text.length : Int) ≤ chunk_size then some [text]
  else (chunkLoop text chunk_size overlap 0 fuel).map
    (List.map (fun t => t.2.2))

example :
    chunk_text (String.toList "a. bbbbbbbbbb") 5 3 20 =
      some [String.toList "a.", [], String.toList ". bbb",
        String.toList "bbbbb", String.toList "bbbbb", String.toList "bbbbb",
        String.toList "bbbb"] := by
  decide

example :
    chunkLoop (String.toList "a. bbbbbbbbbb") 5 3 0 20 =
      some [(0, 2, String.toList "a."), (-1, 4, []),
        (1, 6, String.toList ". bbb"), (3, 8, String.toList "bbbbb"),
        (5, 10, String.toList "bbbbb"), (7, 12, String.toList "bbbbb"),
        (9, 14, String.toList "bbbb")] := by
  decide

/-- Failing input for C1: fifteen `a`s with `chunk_size = overlap = 10`. -/
def c1text : List Char := List.replicate 15 'a'

lemma c1_step (n : Nat) :
    chunkLoop c1text 10 10 0 (n + 1) =
      (chunkLoop c1text 10 10 0 n).map
        (fun rest => (0, 10, pySlice c1text 0 10) :: rest) := by
  have hrf : pyRfind c1text ['.', ' '] 0 (0 + 10) = -1 := by decide
  have hl : (c1text.length : Int) = 15 := by decide
  simp only [chunkLoop, hrf, hl]
  norm_num

lemma c1_loop_diverges (fuel : Nat) : chunkLoop c1text 10 10 0 fuel = none := by
  induction fuel with
  | zero => rfl
  | succ n ih => rw [c1_step, ih]; rfl

/-- Claim C1: the spec requires `chunk_size <= overlap` to be rejected with a
configuration error.  The code performs no such check: at
`chunk_text("aaaaaaaaaaaaaaa", 10, 10)` the cursor advances from 0 back to 0
every iteration, so the loop never terminates (the fuel-indexed embedding
returns `none` for every fuel).  This refutes the claim on the code and
exhibits the very non-termination the spec says must be prevented. -/
theorem C1_chunk_size_le_overlap_diverges (fuel : Nat) :
    chunk_text c1text 10 10 fuel = none := by
  have h : ¬ ((c1text.length : Int) ≤ 10) := by decide
  simp only [chunk_text, if_neg h, c1_loop_diverges, Option.map_none']

/-- Failing input for C2: well-formed parameters `chunk_size = 10 > overlap
= 5 ≥ 0`, on a text whose sentence boundary sits just after the window
start. -/
def c2text : List Char := String.toList "aaaab. " ++ List.replicate 20 'x'

lemma c2_stuck_step (n : Nat) :
    chunkLoop c2text 10 5 1 (n + 1) =
      (chunkLoop c2text 10 5 1 n).map
        (fun rest => (1, 6, pySlice c2text 1 6) :: rest) := by
  have hrf : pyRfind c2text ['.', ' '] 1 (1 + 10) = 5 := by decide
  have hl : (c2text.length : Int) = 27 := by decide
  simp only [chunkLoop, hrf, hl]
  norm_num

lemma c2_stuck (fuel : Nat) : chunkLoop c2text 10 5 1 fuel = none := by
  induction fuel with
  | zero => rfl
  | succ n ih => rw [c2_stuck_step, ih]; rfl

/-- Claim C2: the spec states `chunk_text` terminates on every well-formed
parameter pair `0 ≤ overlap < chunk_size`.  It does not: on
`chunk_text("aaaab. " + "x"*20, 10, 5)` the first iteration shortens the
window to the sentence boundary (end = 6) and sets `start = 6 - 5 = 1`; from
then on the rightmost ". " in each window is again position 5, so `end` stays
6 and `start` stays 1 forever.  The fuel-indexed embedding returns `none` for
every fuel. -/
theorem C2_wellformed_params_diverge (fuel : Nat) :
    chunk_text c2text 10 5 fuel = none := by
  have h : ¬ ((c2text.length : Int) ≤ 10) := by decide
  cases fuel with
  | zero => simp only [chunk_text, if_neg h]; rfl
  | succ n =>
    have hrf : pyRfind c2text ['.', ' '] 0 (0 + 10) = 5 := by decide
    have hl : (c2text.length : Int) = 27 := by decide
    simp only [chunk_text, if_neg h, chunkLoop, hrf, hl]
    norm_num [c2_stuck]

lemma matchAt_eq_false {text sub : List Char} (hne : sub ≠ [])
    (h : containsSub text sub = false) (p : Nat) :
    matchAt text sub p = false := by
  by_cases hp : p ≤ text.length
  · have hall := List.any_eq_false.mp h
    exact Bool.eq_false_iff.mpr
      (hall p (List.mem_range.mpr (Nat.lt_succ_of_le hp)))
  · rw [matchAt, List.drop_eq_nil_of_le (le_of_not_le hp)]
    cases sub with
    | nil => exact absurd rfl hne
    | cons a as => rfl

lemma rfindFrom_eq_neg_one {text sub : List Char}
    (h : ∀ p, matchAt text sub p = false) (lo : Nat) :
    ∀ k, rfindFrom text sub lo k = -1 := by
  intro k
  induction k with
  | zero => simp [rfindFrom, h]
  | succ n ih => simp [rfindFrom, h, ih]

lemma pyRfind_eq_neg_one {text sub : List Char} (hne : sub ≠ [])
    (h : containsSub text sub = false) (i j : Int) :
    pyRfind text sub i j = -1 := by
  simp only [pyRfind]
  split
  · rfl
  · exact rfindFrom_eq_neg_one (matchAt_eq_false hne h) _ _

lemma pySlice_ofNat (text : List Char) (s e : Nat) :
    pySlice text (s : Int) (e : Int) = (text.take e).drop s := by
  have hs : ¬ ((s : Int) < 0) := by omega
  have he : ¬ ((e : Int) < 0) := by omega
  simp only [pySlice, normIdx, if_neg hs, if_neg he, Int.toNat_natCast]
  have h1 : text.take (min e text.length) = text.take e := by
    rw [← List.take_take, List.take_length]
  rw [h1]
  rcases le_or_lt s text.length with h | h
  · rw [min_eq_left h]
  · have h2 : (text.take e).drop (min s text.length) = [] :=
      List.drop_eq_nil_of_le (by simp [List.length_take]; omega)
    have h3 : (text.take e).drop s = [] :=
      List.drop_eq_nil_of_le (by simp [List.length_take]; omega)
    rw [h2, h3]

lemma drop_take_append {α : Type} (l : List α) (i j : Nat) (hij : i ≤ j) :
    (l.take j).drop i ++ l.drop j = l.drop i := by
  rcases le_or_lt i l.length with hi | hi
  · conv_rhs => rw [← List.take_append_drop j l]
    rw [List.drop_append_of_le_length (by simp [List.length_take]; omega)]
  · have h1 : (l.take j).drop i = [] :=
      List.drop_eq_nil_of_le (by simp [List.length_take]; omega)
    have h2 : l.drop j = [] := List.drop_eq_nil_of_le (by omega)
    have h3 : l.drop i = [] := List.drop_eq_nil_of_le (by omega)
    rw [h1, h2, h3, List.nil_append]

/-- The chunking loop restricted to texts with no ". " occurrence, where the
sentence-boundary adjustment can never fire: the cursor arithmetic then
stays in the naturals.  `chunkLoop_eq_simpleLoop` proves the two agree. -/
def simpleLoop (text : List Char) (csN ovN : Nat) :
    Nat → Nat → Option (List (Nat × Nat × List Char))
  | _, 0 => none
  | s, fuel + 1 =>
    if s < text.length then
      let e := s + csN
      let s' := if e < text.length then e - ovN else e
      (simpleLoop text csN ovN s' fuel).map
        (fun rest => (s, e, (text.take e).drop s) :: rest)
    else
      some []

lemma chunkLoop_eq_simpleLoop (text : List Char) (cs ov : Int)
    (hov : 0 ≤ ov) (hcs : ov < cs)
    (hnm : containsSub text ['.', ' '] = false) :
    ∀ (fuel : Nat) (s : Nat),
      chunkLoop text cs ov (s : Int) fuel =
        (simpleLoop text cs.toNat ov.toNat s fuel).map
          (List.map (fun t => ((t.1 : Int), (t.2.1 : Int), t.2.2))) := by
  intro fuel
  induction fuel with
  | zero => intro s; rfl
  | succ n ih =>
    intro s
    have hcs0 : (0 : Int) ≤ cs := le_trans hov (le_of_lt hcs)
    have hcseq : (cs.toNat : Int) = cs := Int.toNat_of_nonneg hcs0
    have hoveq : (ov.toNat : Int) = ov := Int.toNat_of_nonneg hov
    have hovN : ov.toNat ≤ cs.toNat := by omega
    have hrf : pyRfind text ['.', ' '] (s : Int) ((s : Int) + cs) = -1 :=
      pyRfind_eq_neg_one (by simp) hnm _ _
    have hno : ¬ ((-1 : Int) > (s : Int)) := by omega
    simp only [chunkLoop, simpleLoop, hrf, if_neg hno, ite_self]
    by_cases hs : s < text.length
    · have hs' : ((s : Int)) < (text.length : Int) := by exact_mod_cast hs
      have hecast : (s : Int) + cs = ((s + cs.toNat : Nat) : Int) := by
        push_cast [hcseq]; ring
      rw [if_pos hs', if_pos hs]
      by_cases he : s + cs.toNat < text.length
      · have he' : (s : Int) + cs < (text.length : Int) := by
          rw [hecast]; exact_mod_cast he
        have hscast : (s : Int) + cs - ov = ((s + cs.toNat - ov.toNat : Nat) : Int) := by
          push_cast [hcseq, hoveq, Nat.cast_sub (by omega : ov.toNat ≤ s + cs.toNat)]
          ring
        rw [if_pos he', if_pos he, hscast, ih]
        rw [Option.map_map, Option.map_map]
        congr 1
        funext rest
        simp only [Function.comp_apply, List.map_cons]
        rw [hecast, pySlice_ofNat]
      · have he' : ¬ ((s : Int) + cs < (text.length : Int)) := by
          rw [hecast]; exact_mod_cast he
        rw [if_neg he', if_neg he, hecast, ih]
        rw [Option.map_map, Option.map_map]
        congr 1
        funext rest
        simp only [Function.comp_apply, List.map_cons]
        rw [pySlice_ofNat]
    · have hs' : ¬ ((s : Int)) < (text.length : Int) := by exact_mod_cast hs
      rw [if_neg hs', if_neg hs]
      rfl

lemma simpleLoop_props (text : List Char) (csN ovN : Nat) (hov : ovN < csN) :
    ∀ (fuel : Nat) (s : Nat) (L : List (Nat × Nat × List Char)),
      simpleLoop text csN ovN s fuel = some L →
      ((L.map (fun t => t.2.2.drop ovN)).flatten = text.drop (s + ovN)) ∧
      (∀ t ∈ L.head?, t = (s, s + csN, (text.take (s + csN)).drop s)) ∧
      (s < text.length → L ≠ []) ∧
      L.Chain' (fun a b => a.1 < b.1 ∧ a.2.1 < b.2.1 ∧ b.1 ≤ a.2.1 ∧
        a.2.1 - b.1 = ovN ∧
        a.2.2.drop (a.2.2.length - ovN) = b.2.2.take ovN ∧
        (b.2.2.take ovN).length = ovN) := by
  intro fuel
  induction fuel with
  | zero => intro s L h; simp [simpleLoop] at h
  | succ n ih =>
    intro s L h
    by_cases hs : s < text.length
    · simp only [simpleLoop, if_pos hs] at h
      obtain ⟨L', hL', hcons⟩ := Option.map_eq_some'.mp h
      subst hcons
      by_cases he : s + csN < text.length
      · rw [if_pos he] at hL'
        obtain ⟨ihflat, ihhead, _, ihchain⟩ := ih (s + csN - ovN) L' hL'
        refine ⟨?_, ?_, fun _ => List.cons_ne_nil _ _, ?_⟩
        · simp only [List.map_cons, List.flatten_cons]
          rw [ihflat, (by omega : s + csN - ovN + ovN = s + csN),
            List.drop_drop, drop_take_append text (s + ovN) (s + csN) (by omega)]
        · intro t ht
          simp only [List.head?_cons, Option.mem_def, Option.some.injEq] at ht
          subst ht
          rfl
        · rw [List.chain'_cons']
          refine ⟨?_, ihchain⟩
          intro b hb
          have hbeq := ihhead b hb
          subst hbeq
          dsimp only
          have hlc0 : ((text.take (s + csN)).drop s).length = csN := by
            simp only [List.length_drop, List.length_take]
            omega
          refine ⟨by omega, by omega, by omega, by omega, ?_, ?_⟩
          · rw [hlc0, List.drop_drop,
              (by omega : s + (csN - ovN) = s + csN - ovN),
              List.drop_take, List.drop_take, List.take_take]
            congr 1
            omega
          · simp only [List.length_take, List.length_drop]
            omega
      · rw [if_neg he] at hL'
        have hL'nil : L' = [] := by
          cases n with
          | zero => simp [simpleLoop] at hL'
          | succ m =>
            simp only [simpleLoop, if_neg (by omega : ¬ s + csN < text.length)] at hL'
            exact (Option.some.inj hL').symm
        subst hL'nil
        refine ⟨?_, ?_, fun _ => List.cons_ne_nil _ _, List.chain'_singleton _⟩
        · simp only [List.map_cons, List.map_nil, List.flatten_cons,
            List.flatten_nil, List.append_nil]
          rw [List.take_of_length_le (by omega), List.drop_drop]
        · intro t ht
          simp only [List.head?_cons, Option.mem_def, Option.some.injEq] at ht
          subst ht
          rfl
    · simp only [simpleLoop, if_neg hs] at h
      obtain rfl : L = [] := (Option.some.inj h).symm
      refine ⟨?_, by simp, fun hcon => absurd hcon hs, List.chain'_nil⟩
      rw [List.map_nil, List.flatten_nil,
        List.drop_eq_nil_of_le (by omega : text.length ≤ s + ovN)]

/-- Concatenation of the chunks with the overlap region (the first `overlap`
characters of every chunk after the first) removed: the reconstruction the
spec describes for the coverage property. -/
def reconstrOv (ov : Int) : List (List Char) → List Char
  | [] => []
  | c :: rest => c ++ (rest.map (fun s => s.drop ov.toNat)).flatten

/-- Claim C3, amended: restricted to texts containing no ". " (so that no
sentence-boundary adjustment can occur), whenever `chunk_text` terminates the
chunks cover the text — concatenating them with the overlap regions removed
reconstructs it — and each pair of consecutive chunks shares exactly
`overlap` characters (the last `overlap` characters of a chunk are the first
`overlap` characters of the next, and that shared block has length exactly
`overlap`).  The unrestricted claim is refuted by
`C3_counterexample_coverage_fails`. -/
theorem C3_cover_and_exact_overlap (text : List Char) (cs ov : Int)
    (fuel : Nat) (chunks : List (List Char))
    (hov : 0 ≤ ov) (hcs : ov < cs)
    (hnm : containsSub text ['.', ' '] = false)
    (h : chunk_text text cs ov fuel = some chunks) :
    reconstrOv ov chunks = text ∧
      chunks.Chain' (fun a b =>
        a.drop (a.length - ov.toNat) = b.take ov.toNat ∧
        (b.take ov.toNat).length = ov.toNat) := by
  rw [chunk_text] at h
  by_cases hle : (text.length : Int) ≤ cs
  · rw [if_pos hle] at h
    obtain rfl : chunks = [text] := (Option.some.inj h).symm
    exact ⟨by simp [reconstrOv], List.chain'_singleton _⟩
  · rw [if_neg hle] at h
    have hb := chunkLoop_eq_simpleLoop text cs ov hov hcs hnm fuel 0
    rw [Nat.cast_zero] at hb
    rw [hb, Option.map_map] at h
    obtain ⟨LN, hLN, hchunks⟩ := Option.map_eq_some'.mp h
    have hchunks' : chunks = LN.map (fun t => t.2.2) := by
      rw [← hchunks]
      simp [Function.comp]
    obtain ⟨hflat, hhead, hne, hchain⟩ :=
      simpleLoop_props text cs.toNat ov.toNat (by omega) fuel 0 LN hLN
    have hcseq : (cs.toNat : Int) = cs := Int.toNat_of_nonneg (by omega)
    constructor
    · have h0len : 0 < text.length := by omega
      rcases LN with - | ⟨t0, LN'⟩
      · exact absurd rfl (hne h0len)
      · have ht0 : t0 = (0, 0 + cs.toNat, (text.take (0 + cs.toNat)).drop 0) :=
          hhead t0 (by simp)
        subst ht0
        rw [hchunks']
        simp only [List.map_cons, List.flatten_cons, Nat.zero_add,
          List.drop_zero, reconstrOv] at hflat ⊢
        have hcut : (text.take cs.toNat).drop ov.toNat ++ text.drop cs.toNat =
            text.drop ov.toNat :=
          drop_take_append text ov.toNat cs.toNat (by omega)
        have htail :
            ((LN'.map (fun t => t.2.2)).map (fun s => s.drop ov.toNat)).flatten =
              text.drop cs.toNat := by
          rw [List.map_map]
          exact List.append_cancel_left (hflat.trans hcut.symm)
        rw [htail]
        exact List.take_append_drop _ _
    · rw [hchunks']
      exact (List.chain'_map _).mpr
        (hchain.imp (fun a b hab => ⟨hab.2.2.2.2.1, hab.2.2.2.2.2⟩))

/-- A text with a valid parameter pair (`chunk_size = 5 > overlap = 3 ≥ 0`)
on which the chunker's sentence-boundary adjustment drives the cursor
negative: the counterexample input for claims C3 and C6. -/
def c3text : List Char := String.toList "a. bbbbbbbbbb"

/-- The chunks `chunk_text` actually produces on `c3text` with
`chunk_size = 5`, `overlap = 3`. -/
def c3chunks : List (List Char) :=
  [String.toList "a.", [], String.toList ". bbb", String.toList "bbbbb",
    String.toList "bbbbb", String.toList "bbbbb", String.toList "bbbb"]

/-- Counterexample to claim C3 as stated: with valid parameters
`chunk_size = 5 > overlap = 3 ≥ 0` the chunker terminates on
`"a. bbbbbbbbbb"`, yet concatenating the chunks with the overlap regions
removed does not reconstruct the text (the second chunk is empty because the
cursor went negative, and the space at offset 2 is lost). -/
theorem C3_counterexample_coverage_fails :
    chunk_text c3text 5 3 20 = some c3chunks ∧ reconstrOv 3 c3chunks ≠ c3text := by
  exact ⟨by decide, by decide⟩

/-- A sentence-terminator-free text used to witness the amended C3 and C6. -/
def c3okText : List Char := List.replicate 12 'b'

/-- The chunks of `c3okText` with `chunk_size = 5`, `overlap = 2`. -/
def c3okChunks : List (List Char) :=
  [List.replicate 5 'b', List.replicate 5 'b', List.replicate 5 'b',
    List.replicate 3 'b']

theorem C3_witness_concrete :
    reconstrOv 2 c3okChunks = c3okText ∧
      c3okChunks.Chain' (fun a b =>
        a.drop (a.length - (2 : Int).toNat) = b.take (2 : Int).toNat ∧
        (b.take (2 : Int).toNat).length = (2 : Int).toNat) :=
  C3_cover_and_exact_overlap c3okText 5 2 10 c3okChunks (by norm_num)
    (by norm_num) (by decide) (by decide)

/-- Claim C6, amended: restricted to texts containing no ". " (no
sentence-boundary adjustment), the start and end offsets of the produced
chunks are monotonically non-decreasing (in fact strictly increasing), and
the overlap region size `end_i - start_{i+1}` is constant, equal to
`overlap`, for every consecutive pair (so in particular constant except
possibly at the final chunk).  The unrestricted claim is refuted by
`C6_counterexample_offsets_decrease`. -/
theorem C6_offsets_monotone_overlap_constant (text : List Char) (cs ov : Int)
    (fuel : Nat) (L : List (Int × Int × List Char))
    (hov : 0 ≤ ov) (hcs : ov < cs)
    (hnm : containsSub text ['.', ' '] = false)
    (h : chunkLoop text cs ov 0 fuel = some L) :
    L.Chain' (fun a b => a.1 ≤ b.1 ∧ a.2.1 ≤ b.2.1) ∧
      L.Chain' (fun a b => a.2.1 - b.1 = ov) := by
  have hb := chunkLoop_eq_simpleLoop text cs ov hov hcs hnm fuel 0
  rw [Nat.cast_zero] at hb
  rw [hb] at h
  obtain ⟨LN, hLN, rfl⟩ := Option.map_eq_some'.mp h
  obtain ⟨-, -, -, hchain⟩ :=
    simpleLoop_props text cs.toNat ov.toNat (by omega) fuel 0 LN hLN
  have hoveq : (ov.toNat : Int) = ov := Int.toNat_of_nonneg hov
  constructor
  · refine (List.chain'_map _).mpr (hchain.imp ?_)
    intro a b hab
    dsimp only
    exact ⟨by exact_mod_cast Nat.le_of_lt hab.1,
      by exact_mod_cast Nat.le_of_lt hab.2.1⟩
  · refine (List.chain'_map _).mpr (hchain.imp ?_)
    intro a b hab
    dsimp only
    have h1 : b.1 ≤ a.2.1 := hab.2.2.1
    have h2 : a.2.1 - b.1 = ov.toNat := hab.2.2.2.1
    omega

/-- The offset/chunk triples the chunking loop actually produces on `c3text`
with `chunk_size = 5`, `overlap = 3`. -/
def c3triples : List (Int × Int × List Char) :=
  [(0, 2, String.toList "a."), (-1, 4, []), (1, 6, String.toList ". bbb"),
    (3, 8, String.toList "bbbbb"), (5, 10, String.toList "bbbbb"),
    (7, 12, String.toList "bbbbb"), (9, 14, String.toList "bbbb")]

/-- Counterexample to claim C6 as stated: with valid parameters
`chunk_size = 5 > overlap = 3 ≥ 0` on `"a. bbbbbbbbbb"`, the second chunk's
start offset is `-1 < 0`, so the offsets are not monotonically
non-decreasing (and the overlap region sizes 2 - (-1) = 3, 4 - 1 = 3,
6 - 3 = 3, ... are not what the spec's model intends either, the region
`[-1, 2)` lying outside the previous chunk). -/
theorem C6_counterexample_offsets_decrease :
    chunkLoop c3text 5 3 0 20 = some c3triples ∧
      ¬ c3triples.Chain' (fun a b => a.1 ≤ b.1 ∧ a.2.1 ≤ b.2.1) := by
  refine ⟨by decide, fun h => ?_⟩
  exact absurd (List.chain'_cons.mp h).1.1 (by norm_num [c3triples])

/-- The offset/chunk triples of `c3okText` with `chunk_size = 5`,
`overlap = 2`. -/
def c3okTriples : List (Int × Int × List Char) :=
  [(0, 5, List.replicate 5 'b'), (3, 8, List.replicate 5 'b'),
    (6, 11, List.replicate 5 'b'), (9, 14, List.replicate 3 'b')]

theorem C6_witness_concrete :
    c3okTriples.Chain' (fun a b => a.1 ≤ b.1 ∧ a.2.1 ≤ b.2.1) ∧
      c3okTriples.Chain' (fun a b => a.2.1 - b.1 = 2) :=
  C6_offsets_monotone_overlap_constant c3okText 5 2 10 c3okTriples
    (by norm_num) (by norm_num) (by decide) (by decide)

lemma rfindFrom_eq_neg_one_of (text sub : List Char) (lo k : Nat)
    (h : ∀ q, lo ≤ q → q ≤ k → matchAt text sub q = false) :
    rfindFrom text sub lo k = -1 := by
  induction k with
  | zero =>
    by_cases hlo : lo = 0
    · simp [rfindFrom, hlo, h 0 (by omega) (by omega)]
    · simp [rfindFrom, hlo]
  | succ n ih =>
    simp only [rfindFrom]
    by_cases hlt : n + 1 < lo
    · rw [if_pos hlt]
    · rw [if_neg hlt, if_neg (by simp [h (n + 1) (by omega) (by omega)])]
      exact ih (fun q hq1 hq2 => h q hq1 (by omega))

lemma rfindFrom_eq_max (text sub : List Char) (lo k p : Nat)
    (hlo : lo ≤ p) (hpk : p ≤ k) (hm : matchAt text sub p = true)
    (hmax : ∀ q, lo ≤ q → q ≤ k → matchAt text sub q = true → q ≤ p) :
    rfindFrom text sub lo k = p := by
  induction k with
  | zero =>
    have hp0 : p = 0 := by omega
    have hlo0 : lo = 0 := by omega
    subst hp0
    simp [rfindFrom, hlo0, hm]
  | succ n ih =>
    simp only [rfindFrom]
    rw [if_neg (by omega : ¬ n + 1 < lo)]
    by_cases hm1 : matchAt text sub (n + 1) = true
    · have hple : n + 1 ≤ p := hmax (n + 1) (by omega) (le_refl _) hm1
      have hpeq : p = n + 1 := by omega
      rw [if_pos hm1, hpeq]
      push_cast
      ring
    · rw [if_neg hm1]
      have hpn : p ≤ n := by
        rcases Nat.lt_or_ge p (n + 1) with h' | h'
        · omega
        · exact absurd ((by omega : p = n + 1) ▸ hm) hm1
      exact ih hpn (fun q hq1 hq2 hq3 => hmax q hq1 (by omega) hq3)

lemma pyRfind_nat_window (text sub : List Char) (s hi : Nat)
    (hs : s ≤ text.length) (hhi : hi ≤ text.length) :
    pyRfind text sub (s : Int) (hi : Int) =
      if hi < sub.length then -1 else rfindFrom text sub s (hi - sub.length) := by
  have h1 : normIdx (s : Int) text.length = s := by
    rw [normIdx, if_neg (by omega)]
    simp [Int.toNat_natCast]
    omega
  have h2 : normIdx (hi : Int) text.length = hi := by
    rw [normIdx, if_neg (by omega)]
    simp [Int.toNat_natCast]
    omega
  simp only [pyRfind, h1, h2]

/-- Position `p` carries the rightmost occurrence of the sentence terminator
pattern ". " lying fully inside the half-open window `[lo, hi)` of `text`. -/
def IsRightmostBreakIn (text : List Char) (lo hi p : Nat) : Prop :=
  lo ≤ p ∧ p + 2 ≤ hi ∧ matchAt text ['.', ' '] p = true ∧
    ∀ q, lo ≤ q → q + 2 ≤ hi → matchAt text ['.', ' '] q = true → q ≤ p

/-- Claim C8: in an iteration whose nominal window `[start, start + chunk_size)`
does not reach the end of the text, the emitted chunk is `text[start:e]`
where `e` is determined by the backward search for the rightmost ". " inside
the window: if no occurrence lies fully inside the window, `e` is the hard
boundary `start + chunk_size`; if the rightmost occurrence is at `p > start`,
the window is shortened to `e = p + 1`, right after the terminator's period;
if it is at `p = start` (not strictly after the window start), the hard
boundary is kept. -/
theorem C8_window_shortened_at_rightmost_break (text : List Char)
    (cs ov : Int) (s : Nat) (fuel : Nat) (L : List (Int × Int × List Char))
    (hov : 0 ≤ ov) (hcs : ov < cs)
    (hwin : (s : Int) + cs < (text.length : Int))
    (h : chunkLoop text cs ov (s : Int) (fuel + 1) = some L) :
    ∃ e rest, L = ((s : Int), e, pySlice text (s : Int) e) :: rest ∧
      ((∀ q, s ≤ q → q + 2 ≤ s + cs.toNat → matchAt text ['.', ' '] q = false) →
        e = (s : Int) + cs) ∧
      (∀ p, IsRightmostBreakIn text s (s + cs.toNat) p →
        (s < p → e = (p : Int) + 1) ∧ (p ≤ s → e = (s : Int) + cs)) := by
  have hcs0 : (0 : Int) < cs := by omega
  have hcseq : (cs.toNat : Int) = cs := Int.toNat_of_nonneg hcs0.le
  have hsn : s < text.length := by omega
  have hslt : (s : Int) < (text.length : Int) := by omega
  simp only [chunkLoop, if_pos hslt, if_pos hwin] at h
  obtain ⟨rest, hrest, hL⟩ := Option.map_eq_some'.mp h
  have hwr : pyRfind text ['.', ' '] (s : Int) ((s : Int) + cs) =
      if s + cs.toNat < 2 then -1
      else rfindFrom text ['.', ' '] s (s + cs.toNat - 2) := by
    have hcast : (s : Int) + cs = ((s + cs.toNat : Nat) : Int) := by
      push_cast [hcseq]; ring
    rw [hcast, pyRfind_nat_window text ['.', ' '] s (s + cs.toNat)
      (by omega) (by omega)]
    rfl
  refine ⟨_, rest, hL.symm, ?_, ?_⟩
  · intro hq
    have hr : pyRfind text ['.', ' '] (s : Int) ((s : Int) + cs) = -1 := by
      rw [hwr]
      split
      · rfl
      · exact rfindFrom_eq_neg_one_of text ['.', ' '] s (s + cs.toNat - 2)
          (fun q h1 h2 => hq q h1 (by omega))
    rw [hr, if_neg (by omega : ¬ (-1 : Int) > (s : Int))]
  · intro p hp
    obtain ⟨hp1, hp2, hp3, hp4⟩ := hp
    have hr : pyRfind text ['.', ' '] (s : Int) ((s : Int) + cs) = (p : Int) := by
      rw [hwr, if_neg (by omega : ¬ s + cs.toNat < 2)]
      exact rfindFrom_eq_max text ['.', ' '] s (s + cs.toNat - 2) p hp1
        (by omega) hp3 (fun q h1 h2 h3 => hp4 q h1 (by omega) h3)
    constructor
    · intro hsp
      rw [hr, if_pos (by exact_mod_cast hsp)]
    · intro hps
      have hpe : p = s := by omega
      rw [hr, hpe, if_neg (by omega : ¬ (s : Int) > (s : Int))]

/-- Concrete text for the C8 witness: a ". " at offset 2, window `[0, 6)`
inside the 10-character text. -/
def c8text : List Char := String.toList "ab. cdefgh"

/-- The offset/chunk triples of `c8text` with `chunk_size = 6`,
`overlap = 0`. -/
def c8triples : List (Int × Int × List Char) :=
  [(0, 3, String.toList "ab."), (3, 9, String.toList " cdefg"),
    (9, 15, String.toList "h")]

theorem C8_witness_concrete :
    ∃ e rest,
      c8triples = (((0 : Nat) : Int), e, pySlice c8text ((0 : Nat) : Int) e) :: rest ∧
      ((∀ q, 0 ≤ q → q + 2 ≤ 0 + (6 : Int).toNat →
          matchAt c8text ['.', ' '] q = false) → e = ((0 : Nat) : Int) + 6) ∧
      (∀ p, IsRightmostBreakIn c8text 0 (0 + (6 : Int).toNat) p →
        (0 < p → e = (p : Int) + 1) ∧ (p ≤ 0 → e = ((0 : Nat) : Int) + 6)) :=
  C8_window_shortened_at_rightmost_break c8text 6 0 0 9 c8triples
    (by norm_num) (by norm_num) (by decide) (by decide)

/-- The whitespace class Python's `str.split()` and `str.strip()` use
(restricted to the ASCII whitespace characters). -/
def isPySpace (c : Char) : Bool :=
  c = ' ' || c = '\t' || c = '\n' || c = '\r' || c = '\x0b' || c = '\x0c'

/-- Worker for Python `str.split()` with no argument: scan the characters,
accumulating the current word (reversed) in `acc`; a whitespace character
closes the current word (if any), and runs of whitespace produce no empty
words. -/
def splitAux : List Char → List Char → List (List Char)
  | [], acc => if acc.isEmpty then [] else [acc.reverse]
  | c :: cs, acc =>
    if isPySpace c then
      if acc.isEmpty then splitAux cs [] else acc.reverse :: splitAux cs []
    else
      splitAux cs (c :: acc)

/-- Python `text.split()`. -/
def pySplitWS (l : List Char) : List (List Char) := splitAux l []

/-- Python `' '.join(ws)`. -/
def pyJoinSpace : List (List Char) → List Char
  | [] => []
  | [w] => w
  | w :: ws => w ++ ' ' :: pyJoinSpace ws

/-- Python `text.strip()` (whitespace from both ends). -/
def pyStrip (l : List Char) : List Char :=
  ((l.dropWhile isPySpace).reverse.dropWhile isPySpace).reverse

/-- Models `TextProcessor.clean_text` (src/main.py lines 106-111):
`text = ' '.join(text.split()); return text.strip()`. -/
def clean_text (l : List Char) : List Char :=
  pyStrip (pyJoinSpace (pySplitWS l))

lemma splitAux_words : ∀ (l acc : List Char),
    (∀ c ∈ acc, isPySpace c = false) →
    ∀ w ∈ splitAux l acc, w ≠ [] ∧ ∀ c ∈ w, isPySpace c = false := by
  intro l
  induction l with
  | nil =>
    intro acc hacc w hw
    by_cases ha : acc.isEmpty
    · simp [splitAux, ha] at hw
    · simp only [splitAux, if_neg ha, List.mem_singleton] at hw
      subst hw
      refine ⟨by simpa using ha, ?_⟩
      intro c hc
      exact hacc c (List.mem_reverse.mp hc)
  | cons c cs ih =>
    intro acc hacc w hw
    by_cases hc : isPySpace c = true
    · simp only [splitAux, if_pos hc] at hw
      by_cases ha : acc.isEmpty
      · rw [if_pos ha] at hw
        exact ih [] (by simp) w hw
      · rw [if_neg ha] at hw
        rcases List.mem_cons.mp hw with rfl | hw'
        · refine ⟨by simpa using ha, ?_⟩
          intro x hx
          exact hacc x (List.mem_reverse.mp hx)
        · exact ih [] (by simp) w hw'
    · simp only [splitAux, if_neg hc] at hw
      refine ih (c :: acc) ?_ w hw
      intro x hx
      rcases List.mem_cons.mp hx with rfl | hx'
      · exact Bool.eq_false_iff.mpr hc
      · exact hacc x hx'

lemma splitAux_prepend : ∀ (w l acc : List Char),
    (∀ c ∈ w, isPySpace c = false) →
    splitAux (w ++ l) acc = splitAux l (w.reverse ++ acc) := by
  intro w
  induction w with
  | nil => intro l acc _; simp
  | cons c w' ih =>
    intro l acc hw
    have hc : isPySpace c = false := hw c (by simp)
    show splitAux (c :: (w' ++ l)) acc = splitAux l ((c :: w').reverse ++ acc)
    simp only [splitAux, hc, Bool.false_eq_true, if_false]
    rw [ih l (c :: acc) (fun x hx => hw x (by simp [hx]))]
    simp

lemma pySplitWS_join : ∀ (ws : List (List Char)),
    (∀ w ∈ ws, w ≠ [] ∧ ∀ c ∈ w, isPySpace c = false) →
    pySplitWS (pyJoinSpace ws) = ws := by
  intro ws
  induction ws with
  | nil => intro _; rfl
  | cons w ws' ih =>
    intro hws
    obtain ⟨hne, hsf⟩ := hws w (by simp)
    cases ws' with
    | nil =>
      have hpre := splitAux_prepend w [] [] hsf
      rw [List.append_nil] at hpre
      show splitAux w [] = [w]
      rw [hpre]
      simp [splitAux, List.isEmpty_iff, hne]
    | cons w2 ws'' =>
      show splitAux (w ++ ' ' :: pyJoinSpace (w2 :: ws'')) [] = w :: w2 :: ws''
      rw [splitAux_prepend w _ [] hsf, List.append_nil]
      have hsp : isPySpace ' ' = true := rfl
      have hrevne : ¬ (w.reverse.isEmpty = true) := by
        simp [List.isEmpty_iff, hne]
      simp only [splitAux, hsp, if_true, if_neg hrevne, List.reverse_reverse]
      have := ih (fun x hx => hws x (by simp [hx]))
      rw [show splitAux (pyJoinSpace (w2 :: ws'')) [] =
        pySplitWS (pyJoinSpace (w2 :: ws'')) from rfl, this]

lemma pyJoinSpace_space_chars : ∀ (ws : List (List Char)),
    (∀ w ∈ ws, ∀ c ∈ w, isPySpace c = false) →
    ∀ c ∈ pyJoinSpace ws, isPySpace c = true → c = ' ' := by
  intro ws
  induction ws with
  | nil => intro _ c hc; simp [pyJoinSpace] at hc
  | cons w ws' ih =>
    intro hws c hc hsp
    cases ws' with
    | nil =>
      exact absurd hsp (by simp [hws w (by simp) c hc])
    | cons w2 ws'' =>
      rcases List.mem_append.mp hc with hcw | hctail
      · exact absurd hsp (by simp [hws w (by simp) c hcw])
      · rcases List.mem_cons.mp hctail with rfl | hcj
        · rfl
        · exact ih (fun x hx => hws x (by simp [hx])) c hcj hsp

lemma chain'_of_all_nonspace : ∀ (l : List Char),
    (∀ c ∈ l, isPySpace c = false) →
    l.Chain' (fun a b => isPySpace a = false ∨ isPySpace b = false) := by
  intro l
  induction l with
  | nil => intro _; exact List.chain'_nil
  | cons c cs ih =>
    intro h
    rw [List.chain'_cons']
    exact ⟨fun y _ => Or.inl (h c (by simp)),
      ih (fun x hx => h x (by simp [hx]))⟩

lemma pyJoinSpace_ne_nil (w : List Char) (ws : List (List Char))
    (hne : w ≠ []) : pyJoinSpace (w :: ws) ≠ [] := by
  cases ws with
  | nil => exact hne
  | cons w2 ws' => simp [pyJoinSpace, hne]

lemma pyJoinSpace_head (w : List Char) (ws : List (List Char)) (hne : w ≠ []) :
    (pyJoinSpace (w :: ws)).head? = w.head? := by
  cases ws with
  | nil => rfl
  | cons w2 ws' =>
    show (w ++ ' ' :: pyJoinSpace (w2 :: ws')).head? = w.head?
    exact List.head?_append_of_ne_nil w hne

lemma pyJoinSpace_getLast_nonspace : ∀ (ws : List (List Char)),
    (∀ w ∈ ws, w ≠ [] ∧ ∀ c ∈ w, isPySpace c = false) →
    ∀ c ∈ (pyJoinSpace ws).getLast?, isPySpace c = false := by
  intro ws
  induction ws with
  | nil => intro _ c hc; simp [pyJoinSpace] at hc
  | cons w ws' ih =>
    intro hws c hc
    cases ws' with
    | nil =>
      obtain ⟨h1, rfl⟩ := List.mem_getLast?_eq_getLast hc
      exact (hws w (by simp)).2 _ (List.getLast_mem h1)
    | cons w2 ws'' =>
      rw [show pyJoinSpace (w :: w2 :: ws'') =
          w ++ ' ' :: pyJoinSpace (w2 :: ws'') from rfl,
        List.getLast?_append_cons] at hc
      have hne2 : pyJoinSpace (w2 :: ws'') ≠ [] :=
        pyJoinSpace_ne_nil w2 ws'' (hws w2 (by simp)).1
      cases hj : pyJoinSpace (w2 :: ws'') with
      | nil => exact absurd hj hne2
      | cons d ds =>
        rw [hj, List.getLast?_cons_cons] at hc
        refine ih (fun x hx => hws x (by simp [hx])) c ?_
        rw [hj]
        exact hc

lemma dropWhile_eq_self_of_head (l : List Char)
    (h : ∀ c ∈ l.head?, isPySpace c = false) :
    l.dropWhile isPySpace = l := by
  cases l with
  | nil => rfl
  | cons a as =>
    rw [List.dropWhile_cons, if_neg (by simp [h a (by simp)])]

lemma pyStrip_eq_self (l : List Char)
    (h1 : ∀ c ∈ l.head?, isPySpace c = false)
    (h2 : ∀ c ∈ l.getLast?, isPySpace c = false) :
    pyStrip l = l := by
  rw [pyStrip, dropWhile_eq_self_of_head l h1,
    dropWhile_eq_self_of_head l.reverse (by
      intro c hc
      rw [List.head?_reverse] at hc
      exact h2 c hc),
    List.reverse_reverse]

lemma pyJoinSpace_chain : ∀ (ws : List (List Char)),
    (∀ w ∈ ws, w ≠ [] ∧ ∀ c ∈ w, isPySpace c = false) →
    (pyJoinSpace ws).Chain' (fun a b => isPySpace a = false ∨ isPySpace b = false) := by
  intro ws
  induction ws with
  | nil => intro _; exact List.chain'_nil
  | cons w ws' ih =>
    intro hws
    cases ws' with
    | nil => exact chain'_of_all_nonspace w (hws w (by simp)).2
    | cons w2 ws'' =>
      show List.Chain' _ (w ++ ' ' :: pyJoinSpace (w2 :: ws''))
      rw [List.chain'_append]
      refine ⟨chain'_of_all_nonspace w (hws w (by simp)).2, ?_, ?_⟩
      · rw [List.chain'_cons']
        refine ⟨?_, ih (fun x hx => hws x (List.mem_cons_of_mem _ hx))⟩
        intro y hy
        rw [pyJoinSpace_head w2 ws'' (hws w2 (by simp)).1] at hy
        exact Or.inr ((hws w2 (by simp)).2 y (List.mem_of_mem_head? hy))
      · intro x hx y hy
        exact Or.inl ((hws w (by simp)).2 x (List.mem_of_mem_getLast? hx))

lemma clean_text_eq_join (l : List Char) :
    clean_text l = pyJoinSpace (pySplitWS l) := by
  have hwords : ∀ w ∈ pySplitWS l, w ≠ [] ∧ ∀ c ∈ w, isPySpace c = false :=
    splitAux_words l [] (by simp)
  rw [clean_text]
  cases hsp : pySplitWS l with
  | nil => rfl
  | cons w ws' =>
    rw [hsp] at hwords
    refine pyStrip_eq_self _ ?_ ?_
    · intro c hc
      rw [pyJoinSpace_head w ws' (hwords w (by simp)).1] at hc
      exact (hwords w (by simp)).2 c (List.mem_of_mem_head? hc)
    · exact pyJoinSpace_getLast_nonspace (w :: ws') hwords

/-- Claim C7: `clean_text` collapses every run of whitespace (including
newlines) to a single space and strips the ends, preserving the words and
their order: the word sequence of the output is that of the input, every
whitespace character of the output is a plain space, no two adjacent output
characters are both whitespace, the output has no leading or trailing
whitespace, the empty input gives the empty output, and
`clean_text "a   b\n\nc" = "a b c"`. -/
theorem C7_clean_text_normalizes (l : List Char) :
    pySplitWS (clean_text l) = pySplitWS l ∧
    (∀ c ∈ clean_text l, isPySpace c = true → c = ' ') ∧
    (clean_text l).Chain' (fun a b => isPySpace a = false ∨ isPySpace b = false) ∧
    (∀ c ∈ (clean_text l).head?, isPySpace c = false) ∧
    (∀ c ∈ (clean_text l).getLast?, isPySpace c = false) ∧
    clean_text ([] : List Char) = [] ∧
    clean_text (String.toList "a   b\n\nc") = String.toList "a b c" := by
  have hwords : ∀ w ∈ pySplitWS l, w ≠ [] ∧ ∀ c ∈ w, isPySpace c = false :=
    splitAux_words l [] (by simp)
  rw [clean_text_eq_join]
  refine ⟨pySplitWS_join (pySplitWS l) hwords, ?_, ?_, ?_, ?_, rfl, by decide⟩
  · exact pyJoinSpace_space_chars (pySplitWS l) (fun w hw => (hwords w hw).2)
  · exact pyJoinSpace_chain (pySplitWS l) hwords
  · intro c hc
    cases hsp : pySplitWS l with
    | nil => rw [hsp] at hc; simp [pyJoinSpace] at hc
    | cons w ws' =>
      rw [hsp] at hc hwords
      rw [pyJoinSpace_head w ws' (hwords w (by simp)).1] at hc
      exact (hwords w (by simp)).2 c (List.mem_of_mem_head? hc)
  · intro c hc
    cases hsp : pySplitWS l with
    | nil => rw [hsp] at hc; simp [pyJoinSpace] at hc
    | cons w ws' =>
      rw [hsp] at hc hwords
      exact pyJoinSpace_getLast_nonspace (w :: ws') hwords c hc

/-- A chat message: `{"role": ..., "content": ...}`. -/
structure Message where
  role : List Char
  content : List Char
deriving DecidableEq

/-- State of `ConversationManager` (src/main.py lines 237-267). -/
structure ConversationManager where
  messages : List Message
  max_history : Int
deriving DecidableEq

/-- Models `ConversationManager.__init__` (the code's default is
`max_history = 20`). -/
def ConversationManager.init (max_history : Int) : ConversationManager :=
  ⟨[], max_history⟩

/-- Python `l[i:]` on a list. -/
def pySliceFrom {α : Type} (l : List α) (i : Int) : List α :=
  l.drop (normIdx i l.length)

/-- Models `ConversationManager.add_message`: append, then
`if len(self.messages) > self.max_history: self.messages =
self.messages[-self.max_history:]`. -/
def add_message (st : ConversationManager) (role content : List Char) :
    ConversationManager :=
  let msgs := st.messages ++ [⟨role, content⟩]
  if (msgs.length : Int) > st.max_history then
    { st with messages := pySliceFrom msgs (-st.max_history) }
  else
    { st with messages := msgs }

/-- Models `ConversationManager.get_history` (value-level; the aliasing
behaviour of `.copy()` is modelled separately for claim C9). -/
def get_history (st : ConversationManager) : List Message := st.messages

/-- The last `k` elements of a list (all of it when it is shorter). -/
def takeLast {α : Type} (k : Nat) (l : List α) : List α :=
  l.drop (l.length - k)

lemma takeLast_length {α : Type} (k : Nat) (l : List α) :
    (takeLast k l).length = min k l.length := by
  simp only [takeLast, List.length_drop]
  omega

lemma takeLast_of_le {α : Type} (k : Nat) (l : List α) (h : l.length ≤ k) :
    takeLast k l = l := by
  simp [takeLast, Nat.sub_eq_zero_of_le h]

lemma takeLast_append_singleton {α : Type} (k : Nat) (hk : 1 ≤ k)
    (l : List α) (x : α) :
    takeLast k (takeLast k l ++ [x]) = takeLast k (l ++ [x]) := by
  by_cases hl : l.length ≤ k
  · rw [takeLast_of_le k l hl]
  · have hlen : (takeLast k l).length = k := by rw [takeLast_length]; omega
    simp only [takeLast, List.length_append, hlen, List.length_singleton]
    rw [List.drop_append_of_le_length (by omega),
      List.drop_append_of_le_length (by omega), List.drop_drop]
    congr 2
    simp only [List.length_drop]
    omega

lemma pySliceFrom_neg {α : Type} (l : List α) (max : Int) (hmax : 1 ≤ max) :
    pySliceFrom l (-max) = takeLast max.toNat l := by
  rw [pySliceFrom, normIdx, if_pos (by omega : -max < 0), takeLast]
  congr 1
  omega

lemma add_message_takeLast (max : Int) (hmax : 1 ≤ max) (ms : List Message)
    (r c : List Char) :
    add_message ⟨takeLast max.toNat ms, max⟩ r c =
      ⟨takeLast max.toNat (ms ++ [⟨r, c⟩]), max⟩ := by
  have hk1 : 1 ≤ max.toNat := by omega
  rw [add_message]
  by_cases hml : ms.length < max.toNat
  · have hcond : ¬ (((takeLast max.toNat ms ++ [(⟨r, c⟩ : Message)]).length : Int) >
        max) := by
      simp only [List.length_append, takeLast_length, List.length_singleton]
      omega
    rw [if_neg hcond]
    have h1 : takeLast max.toNat ms = ms := takeLast_of_le _ _ (by omega)
    have h2 : takeLast max.toNat (ms ++ [(⟨r, c⟩ : Message)]) =
        ms ++ [(⟨r, c⟩ : Message)] :=
      takeLast_of_le _ _ (by simp; omega)
    rw [h1, h2]
  · have hcond : (((takeLast max.toNat ms ++ [(⟨r, c⟩ : Message)]).length : Int) >
        max) := by
      simp only [List.length_append, takeLast_length, List.length_singleton]
      omega
    rw [if_pos hcond]
    rw [pySliceFrom_neg _ max hmax, takeLast_append_singleton _ hk1]

lemma foldl_add_message (max : Int) (hmax : 1 ≤ max) :
    ∀ (adds : List (List Char × List Char)) (ms : List Message),
      adds.foldl (fun st rc => add_message st rc.1 rc.2)
          ⟨takeLast max.toNat ms, max⟩ =
        ⟨takeLast max.toNat (ms ++ adds.map fun rc => ⟨rc.1, rc.2⟩), max⟩ := by
  intro adds
  induction adds with
  | nil => intro ms; simp
  | cons a adds' ih =>
    intro ms
    rw [List.foldl_cons, add_message_takeLast max hmax ms a.1 a.2]
    rw [ih (ms ++ [Message.mk a.1 a.2])]
    simp

/-- Claim C4, amended: for a `ConversationManager` configured with a positive
cap `max_history ≥ 1`, after any sequence of `add_message` calls the stored
history is exactly the last `max_history` of the added messages in their
insertion order (so its length never exceeds `max_history`, eviction is
oldest-first, and after 25 adds with `max_history = 20` exactly the 20 most
recent messages remain, in order).  For `max_history = 0` the claim fails on
the code (`C4_counterexample_zero_cap`): Python's `messages[-0:]` is the
whole list, so nothing is ever evicted. -/
theorem C4_history_bounded_fifo (max : Int)
    (adds : List (List Char × List Char)) (hmax : 1 ≤ max) :
    get_history (adds.foldl (fun st rc => add_message st rc.1 rc.2)
        (ConversationManager.init max)) =
      takeLast max.toNat (adds.map fun rc => ⟨rc.1, rc.2⟩) ∧
    (get_history (adds.foldl (fun st rc => add_message st rc.1 rc.2)
        (ConversationManager.init max))).length ≤ max.toNat := by
  have hinit : ConversationManager.init max = ⟨takeLast max.toNat [], max⟩ := by
    simp [ConversationManager.init, takeLast]
  rw [hinit, foldl_add_message max hmax adds []]
  constructor
  · simp [get_history]
  · simp [get_history, takeLast_length]

/-- Counterexample to claim C4 as stated: with cap `max_history = 0` a single
`add_message` leaves one stored message, exceeding the cap — Python's
`messages[-0:]` slice is the whole list, so the trim never removes
anything. -/
theorem C4_counterexample_zero_cap :
    ¬ ((get_history (add_message (ConversationManager.init 0)
        (String.toList "user") (String.toList "hi"))).length ≤ (0 : Int).toNat) := by
  decide

/-- Twenty-five adds, as in the spec's example. -/
def adds25 : List (List Char × List Char) :=
  List.replicate 25 (String.toList "user", String.toList "m")

theorem C4_witness_25_adds :
    get_history (adds25.foldl (fun st rc => add_message st rc.1 rc.2)
        (ConversationManager.init 20)) =
      takeLast (20 : Int).toNat (adds25.map fun rc => ⟨rc.1, rc.2⟩) ∧
    (get_history (adds25.foldl (fun st rc => add_message st rc.1 rc.2)
        (ConversationManager.init 20))).length ≤ (20 : Int).toNat :=
  C4_history_bounded_fifo 20 adds25 (by norm_num)

/-- Python `sep.join(ws)`. -/
def pyJoin (sep : List Char) : List (List Char) → List Char
  | [] => []
  | [w] => w
  | w :: ws => w ++ sep ++ pyJoin sep ws

/-- The fixed truncation marker appended by `OllamaAssistant.chat`
(src/app.py line 49). -/
def truncMarker : List Char := String.toList "\n[Document truncated...]"

/-- Models the context assembly in `main` (src/app.py lines 182-184):
`pdf_context = ""` and, when documents are loaded,
`pdf_context = "\n\n".join(st.session_state.pdf_texts)`. -/
def joinDocs (texts : List (List Char)) : List Char :=
  if texts.isEmpty then [] else pyJoin (String.toList "\n\n") texts

/-- Models the truncation in `OllamaAssistant.chat` (src/app.py lines 48-49):
`if len(pdf_context) > 3000: pdf_context = pdf_context[:3000] +
"\n[Document truncated...]"`. -/
def truncateContext (ctx : List Char) : List Char :=
  if 3000 < ctx.length then pySlice ctx 0 3000 ++ truncMarker else ctx

/-- The full pipeline from the loaded documents' texts to the context string
sent to the model. -/
def assembleContext (texts : List (List Char)) : List Char :=
  truncateContext (joinDocs texts)

lemma pySlice_zero (l : List Char) (e : Nat) :
    pySlice l 0 (e : Int) = l.take e := by
  have h := pySlice_ofNat l 0 e
  simpa using h

/-- Claim C5: context assembly concatenates the documents' texts with the
"\n\n" delimiter; the output never exceeds the 3000-character budget plus
the marker length; when the joined text exceeds 3000 characters the output
is exactly its first 3000 characters followed by the fixed marker (hence it
has length `3000 + len(marker)` and ends with the marker); and the empty
document set yields the empty string.  The model is a total function, so no
exception can occur. -/
theorem C5_assemble_context_budget (texts : List (List Char)) :
    (assembleContext texts).length ≤ 3000 + truncMarker.length ∧
    (3000 < (joinDocs texts).length →
      assembleContext texts = (joinDocs texts).take 3000 ++ truncMarker ∧
      (assembleContext texts).length = 3000 + truncMarker.length ∧
      truncMarker.isSuffixOf (assembleContext texts) = true) ∧
    (texts = [] → assembleContext texts = []) := by
  have hm : truncMarker.length = 24 := by decide
  by_cases h : 3000 < (joinDocs texts).length
  · have hassemble : assembleContext texts = (joinDocs texts).take 3000 ++ truncMarker := by
      rw [assembleContext, truncateContext, if_pos h]
      rw [show ((3000 : Int)) = ((3000 : Nat) : Int) from rfl, pySlice_zero]
    have hlen : (assembleContext texts).length = 3000 + truncMarker.length := by
      rw [hassemble]
      simp only [List.length_append, List.length_take]
      omega
    refine ⟨by omega, fun _ => ⟨hassemble, hlen, ?_⟩, fun he => ?_⟩
    · rw [hassemble]
      exact List.isSuffixOf_iff_suffix.mpr (List.suffix_append _ _)
    · subst he
      simp [joinDocs] at h
  · have hassemble : assembleContext texts = joinDocs texts := by
      rw [assembleContext, truncateContext, if_neg h]
    refine ⟨by rw [hassemble]; omega, fun hc => absurd hc h, fun he => ?_⟩
    subst he
    rfl

/-- Heap of Python list objects: `next` is the next fresh reference, `store`
maps references to list contents.  Used to model object identity for the
defensive-copy claim C9. -/
structure ListHeap where
  next : Nat
  store : Nat → List Message

/-- A `ConversationManager` whose `messages` field is a reference into the
heap (how Python actually stores the list). -/
structure ManagerRef where
  msgsRef : Nat
  max_history : Int

/-- Models `ConversationManager.get_history`:
`return self.messages.copy()` — a fresh list object is allocated, its
contents copied from the manager's own list, and a reference to the fresh
object is returned. -/
def get_history_ref (h : ListHeap) (m : ManagerRef) : Nat × ListHeap :=
  (h.next,
    ⟨h.next + 1, fun r => if r = h.next then h.store m.msgsRef else h.store r⟩)

/-- An in-place mutation performed by the caller on the list object behind
reference `r` (append, remove, clear, ...): the heap cell at `r` is
overwritten; nothing else changes. -/
def listMutate (h : ListHeap) (r : Nat) (new : List Message) : ListHeap :=
  ⟨h.next, fun x => if x = r then new else h.store x⟩

/-- Claim C9: `get_history` returns a defensive copy.  For every valid heap
(the manager's own reference already allocated), mutating the list object
returned by `get_history` leaves the manager's internal list unchanged, and
a subsequent `get_history` call still returns the same messages that the
first call returned. -/
theorem C9_get_history_defensive_copy (h : ListHeap) (m : ManagerRef)
    (new : List Message) (hvalid : m.msgsRef < h.next) :
    ((listMutate (get_history_ref h m).2 (get_history_ref h m).1 new).store
        m.msgsRef = h.store m.msgsRef) ∧
    ((get_history_ref
          (listMutate (get_history_ref h m).2 (get_history_ref h m).1 new)
          m).2.store
        (get_history_ref
          (listMutate (get_history_ref h m).2 (get_history_ref h m).1 new)
          m).1 =
      (get_history_ref h m).2.store (get_history_ref h m).1) := by
  have hne : m.msgsRef ≠ h.next := Nat.ne_of_lt hvalid
  constructor
  · simp [get_history_ref, listMutate, hne]
  · simp [get_history_ref, listMutate, hne]

def c9heap : ListHeap := ⟨1, fun _ => []⟩

def c9mgr : ManagerRef := ⟨0, 20⟩

def c9new : List Message := [⟨String.toList "user", String.toList "x"⟩]

theorem C9_witness_concrete :
    ((listMutate (get_history_ref c9heap c9mgr).2 (get_history_ref c9heap c9mgr).1
        c9new).store c9mgr.msgsRef = c9heap.store c9mgr.msgsRef) ∧
    ((get_history_ref
          (listMutate (get_history_ref c9heap c9mgr).2
            (get_history_ref c9heap c9mgr).1 c9new)
          c9mgr).2.store
        (get_history_ref
          (listMutate (get_history_ref c9heap c9mgr).2
            (get_history_ref c9heap c9mgr).1 c9new)
          c9mgr).1 =
      (get_history_ref c9heap c9mgr).2.store (get_history_ref c9heap c9mgr).1) :=
  C9_get_history_defensive_copy c9heap c9mgr c9new (by decide)

/-- The system prompt returned by `AIClient.get_system_prompt`
(src/main.py lines 143-160). -/
def systemPromptText : List Char :=
  String.toList "You are an intelligent PDF assistant with the following capabilities:\n\n1. **Answer Questions**: Provide accurate answers based on the PDF content\n2. **Cite Sources**: Reference specific sections or pages when answering\n3. **Summarize**: Create concise summaries of document sections\n4. **Extract Information**: Find and extract specific data points\n5. **Compare**: Compare information across multiple documents\n\nGuidelines:\n- Always base answers on the provided PDF content\n- If information is not in the document, clearly state: \"This information is not available in the provided document(s).\"\n- Use markdown formatting for clarity (headers, lists, bold, etc.)\n- Be concise but thorough\n- Cite page numbers when possible\n\nRemember: Your knowledge is limited to the provided PDF content only."

/-- Models the message-list assembly of `AIClient.ask_question`
(src/main.py lines 196-225): system prompt, one user message with the PDF
context, then `chat_history[-10:]` when `chat_history` is truthy (Python's
`if chat_history:` is false for `None` and for the empty list), then the
question.  The assembled list is what `chat_completion` sends. -/
def ask_question_messages (question pdf_context : List Char)
    (chat_history : Option (List Message)) : List Message :=
  let messages : List Message :=
    [⟨String.toList "system", systemPromptText⟩,
     ⟨String.toList "user", String.toList "PDF Content:\n\n" ++ pdf_context⟩]
  let withHistory :=
    match chat_history with
    | none => messages
    | some hist => if hist.isEmpty then messages
        else messages ++ pySliceFrom hist (-10)
  withHistory ++ [⟨String.toList "user", question⟩]

lemma pySliceFrom_neg_ten {α : Type} (l : List α) :
    pySliceFrom l (-10) = takeLast 10 l := by
  rw [pySliceFrom, normIdx, if_pos (by norm_num : (-10 : Int) < 0), takeLast]
  congr 1
  omega

/-- Claim C10: `ask_question` assembles and sends exactly the system prompt,
then one user message carrying the PDF context, then at most the 10 most
recent history entries in their original order (older entries silently
omitted), then a final user message carrying the question. -/
theorem C10_ask_question_message_list (question pdf_context : List Char)
    (chat_history : Option (List Message)) :
    ask_question_messages question pdf_context chat_history =
      ⟨String.toList "system", systemPromptText⟩ ::
      ⟨String.toList "user", String.toList "PDF Content:\n\n" ++ pdf_context⟩ ::
      (takeLast 10 (chat_history.getD []) ++
        [⟨String.toList "user", question⟩]) ∧
    (takeLast 10 (chat_history.getD [])).length ≤ 10 ∧
    ((chat_history.getD []).length ≤ 10 →
      takeLast 10 (chat_history.getD []) = chat_history.getD []) ∧
    (∃ dropped, chat_history.getD [] =
      dropped ++ takeLast 10 (chat_history.getD [])) := by
  refine ⟨?_, ?_, ?_, ?_⟩
  · cases chat_history with
    | none => simp [ask_question_messages, takeLast]
    | some hist =>
      by_cases hh : hist.isEmpty
      · have : hist = [] := by simpa [List.isEmpty_iff] using hh
        subst this
        simp [ask_question_messages, takeLast]
      · simp only [ask_question_messages, if_neg hh, pySliceFrom_neg_ten,
          Option.getD_some]
        simp
  · rw [takeLast_length]
    omega
  · intro hlen
    exact takeLast_of_le _ _ hlen
  · exact ⟨(chat_history.getD []).take ((chat_history.getD []).length - 10),
      (List.take_append_drop _ _).symm⟩

end PDFReader
